import Mathlib

/-!
Verification of the Chaikin corner-cutting core (`src/main.py`, class `Polygon`).

The embedding models:
* `pygame.math.Vector2` as a pair of rationals (`Vec2`), with `Vec2.lerp` the
  per-axis linear interpolation `a + (b - a) * t` that `Vector2.lerp` computes,
  including the `ValueError` that pygame raises when the interpolation
  parameter lies outside [0, 1] (the `none` case);
* `Polygon.__init__` (`Polygon.init`), `Polygon.cut` (`Polygon.cut`) and
  `Polygon.undo_cut` (`Polygon.undo_cut`);
* the module-level `INVERT` constant (False in the source);
* list index assignment as a fallible operation: `new_corners[0] = ...` on an
  empty list raises `IndexError` in Python, so one cutting iteration returns
  an `Option`, with `none` standing for an uncaught runtime error.

The coordinate arithmetic itself is exact rational arithmetic, whereas the
program computes in IEEE doubles; statements that are true only up to, or
false only because of, floating-point rounding are therefore out of scope of
this embedding and are flagged as such where relevant.
-/

structure Vec2 where
  x : ℚ
  y : ℚ
deriving DecidableEq, Repr

/-- Pygame's `Vector2.lerp`: per-axis linear interpolation `a + (b - a) * t`.
Pygame raises `ValueError` when the parameter is outside the range [0, 1];
`none` models that error. -/
def Vec2.lerp (a b : Vec2) (t : ℚ) : Option Vec2 :=
  if t < 0 ∨ 1 < t then none
  else some ⟨a.x + (b.x - a.x) * t, a.y + (b.y - a.y) * t⟩

/-- Module constant `INVERT` (src/main.py line 17): invert the order of new corners. -/
def INVERT : Bool := false

/-- The two points appended for one edge `(a, b)` in the loop body of `Polygon.cut`
(lines 84-90): `a.lerp(b, ratio)` then `b.lerp(a, ratio)`, swapped when `INVERT`;
`none` when the lerp calls raise (ratio outside [0, 1]). -/
def emitPair (a b : Vec2) (t : ℚ) : Option (List Vec2) :=
  (Vec2.lerp a b t).bind (fun p1 =>
    (Vec2.lerp b a t).map (fun p2 =>
      if INVERT then [p2, p1] else [p1, p2]))

/-- The `new_corners` list built by the edge loop of `Polygon.cut` (lines 83-90):
for each `i < nEdges`, in order, the pair for edge
`(corners[i], corners[(i+1) % len])`; `none` as soon as a lerp call raises. -/
def newCornersOf (corners : List Vec2) (t : ℚ) : ℕ → Option (List Vec2)
  | 0 => some []
  | k + 1 =>
    (newCornersOf corners t k).bind (fun acc =>
      (emitPair (corners.getD k ⟨0, 0⟩)
        (corners.getD ((k + 1) % corners.length) ⟨0, 0⟩) t).map
        (fun pr => acc ++ pr))

/-- Lines 94-95 of `Polygon.cut`: `new_corners[0] = corners[0]` and
`new_corners[-1] = corners[-1]`, as index assignments on the same list. -/
def setEndpoints (l : List Vec2) (a b : Vec2) : List Vec2 :=
  let l1 := l.set 0 a
  l1.set (l1.length - 1) b

/-- One iteration of the cutting loop (lines 78-96).  `none` covers the two
runtime errors: a `ValueError` from a lerp call when the normalized ratio is
outside [0, 1], and, for an open polygon, the `IndexError` from the endpoint
restoration `new_corners[0] = ...` when `new_corners` is empty (open polygon
with fewer than 2 corners). -/
def cutIteration (closed : Bool) (t : ℚ) (cs : List Vec2) : Option (List Vec2) :=
  let nEdges := if closed then cs.length else cs.length - 1
  (newCornersOf cs t nEdges).bind (fun nc =>
    if closed then
      some nc
    else
      match nc with
      | [] => none
      | _ :: _ =>
        some (setEndpoints nc (cs.getD 0 ⟨0, 0⟩) (cs.getD (cs.length - 1) ⟨0, 0⟩)))

/-- The `for _ in range(iterations)` loop of `Polygon.cut` (line 77). -/
def cutLoop (closed : Bool) (t : ℚ) : ℕ → List Vec2 → Option (List Vec2)
  | 0, cs => some cs
  | k + 1, cs => (cutIteration closed t cs).bind (cutLoop closed t k)

/-- Lines 74-75 of `Polygon.cut`: avoid cutting over the line midpoint. -/
def normalizeRatio (r : ℚ) : ℚ :=
  if r > 1 / 2 then 1 - r else r

/-- The state of a `Polygon` instance: `corners`, `closed`, `color`, `filled`,
`remember` and the undo stack `memory` (lines 28-37).  The bound `draw` method
is rendering-only and carries no state beyond `closed`/`filled`. -/
structure Polygon where
  corners : List Vec2
  closed : Bool
  color : ℕ × ℕ × ℕ
  filled : Bool
  remember : Bool
  memory : List (List Vec2)
deriving DecidableEq, Repr

/-- Constructor `Polygon.__init__` (lines 21-42): stores the inputs, starts with
empty `memory`; it has no failure path. -/
def Polygon.init (corners : List Vec2) (color : ℕ × ℕ × ℕ)
    (closed : Bool := true) (filled : Bool := false) (remember : Bool := true) : Polygon :=
  { corners := corners, closed := closed, color := color, filled := filled,
    remember := remember, memory := [] }

/-- Method `Polygon.cut` (lines 63-96): push the current corners onto `memory` when
`remember` (before any iteration), normalize the ratio, then run the iteration
loop.  `none` models an uncaught runtime error inside the loop. -/
def Polygon.cut (p : Polygon) (ratio : ℚ) (iterations : ℕ) : Option Polygon :=
  let mem := if p.remember then p.memory ++ [p.corners] else p.memory
  let t := normalizeRatio ratio
  (cutLoop p.closed t iterations p.corners).map
    (fun cs => { p with corners := cs, memory := mem })

/-- Method `Polygon.undo_cut` (lines 98-100): pop the most recent snapshot if any. -/
def Polygon.undo_cut (p : Polygon) : Polygon :=
  match p.memory.getLast? with
  | none => p
  | some cs => { p with corners := cs, memory := p.memory.dropLast }

/-- A sequence of successive `cut` calls, each with its own ratio and
iteration count. -/
def applyCuts (p : Polygon) : List (ℚ × ℕ) → Option Polygon
  | [] => some p
  | c :: rest => (p.cut c.1 c.2).bind (fun p1 => applyCuts p1 rest)

/-- One user command: advance (`cut`) or revert (`undo_cut`). -/
inductive Op where
  | advance : ℚ → ℕ → Op
  | revert : Op
deriving DecidableEq, Repr

def applyOp (p : Polygon) : Op → Option Polygon
  | Op.advance r k => p.cut r k
  | Op.revert => some p.undo_cut

/-- A sequence of advance/revert commands. -/
def applyOps (p : Polygon) : List Op → Option Polygon
  | [] => some p
  | o :: rest => (applyOp p o).bind (fun p1 => applyOps p1 rest)

/-- The closed triangle of the spec's concrete scenario (§8). -/
def triangleC1 : Polygon :=
  Polygon.init [⟨0, 0⟩, ⟨4, 0⟩, ⟨0, 4⟩] (255, 128, 0) true false true

/-- The result of one ratio-0.25 cut on `triangleC1`. -/
def triangleC1Cut : Polygon :=
  { triangleC1 with
    corners := [⟨1, 0⟩, ⟨3, 0⟩, ⟨3, 1⟩, ⟨1, 3⟩, ⟨0, 3⟩, ⟨0, 1⟩],
    memory := [[⟨0, 0⟩, ⟨4, 0⟩, ⟨0, 4⟩]] }

/-- An open two-point polyline. -/
def segmentOpen : Polygon :=
  Polygon.init [⟨0, 0⟩, ⟨4, 0⟩] (0, 0, 0) false false true

/-- `segmentOpen` after one ratio-0.25 cut: the two cut points are overwritten
by the preserved endpoints, so the corners are unchanged and only the snapshot
is added. -/
def segmentOpenCut : Polygon :=
  { segmentOpen with memory := [[⟨0, 0⟩, ⟨4, 0⟩]] }

/-- An open single-point polygon; constructible, but `cut` raises `IndexError`. -/
def singlePointOpen : Polygon :=
  Polygon.init [⟨0, 0⟩] (0, 0, 0) false false true

/-- A degenerate one-point closed polygon, used to instantiate hypotheses of the
general theorems on a concrete input. -/
def pOne : Polygon := Polygon.init [⟨0, 0⟩] (0, 0, 0) true false true

/-- `pOne` after one cut: the single zero vector doubled, one snapshot stored. -/
def pOne1 : Polygon :=
  { pOne with corners := [⟨0, 0⟩, ⟨0, 0⟩], memory := [[⟨0, 0⟩]] }

/-- `pOne` after two cuts. -/
def pOne2 : Polygon :=
  { pOne with
    corners := [⟨0, 0⟩, ⟨0, 0⟩, ⟨0, 0⟩, ⟨0, 0⟩],
    memory := [[⟨0, 0⟩], [⟨0, 0⟩, ⟨0, 0⟩]] }

/-- `pOne` after three cuts. -/
def pOne3 : Polygon :=
  { pOne with
    corners := [⟨0, 0⟩, ⟨0, 0⟩, ⟨0, 0⟩, ⟨0, 0⟩, ⟨0, 0⟩, ⟨0, 0⟩, ⟨0, 0⟩, ⟨0, 0⟩],
    memory := [[⟨0, 0⟩], [⟨0, 0⟩, ⟨0, 0⟩], [⟨0, 0⟩, ⟨0, 0⟩, ⟨0, 0⟩, ⟨0, 0⟩]] }

/-- Modelled from the spec: the construction-time check of §7 is not part of
`src/main.py` (whose `Polygon.__init__` takes no stroke width and has no failure
path); repository variants outside `src/` pass a stroke width and reject open
shapes whose stroke width is zero with an InvalidConfiguration error.  Per the
spec's words: construction fails with InvalidConfiguration exactly for shapes
drawn open with zero stroke width, and succeeds for every other input. -/
def initWithWidth (corners : List Vec2) (color : ℕ × ℕ × ℕ) (width : ℕ)
    (closed filled remember : Bool) : Except String Polygon :=
  if closed = false ∧ width = 0 then
    Except.error "InvalidConfiguration"
  else
    Except.ok (Polygon.init corners color closed filled remember)

/-! ### Structural lemmas about one cutting iteration -/

theorem emitPair_eq_of_valid (a b : Vec2) (t : ℚ) (h0 : 0 ≤ t) (h1 : t ≤ 1) :
    emitPair a b t =
      some [⟨a.x + (b.x - a.x) * t, a.y + (b.y - a.y) * t⟩,
        ⟨b.x + (a.x - b.x) * t, b.y + (a.y - b.y) * t⟩] := by
  have hc : ¬(t < 0 ∨ 1 < t) := by
    rw [not_or]
    exact ⟨not_lt.mpr h0, not_lt.mpr h1⟩
  simp [emitPair, Vec2.lerp, hc, INVERT]

theorem emitPair_length_of_some (a b : Vec2) (t : ℚ) (pr : List Vec2)
    (h : emitPair a b t = some pr) : pr.length = 2 := by
  by_cases hc : t < 0 ∨ 1 < t
  · simp [emitPair, Vec2.lerp, hc] at h
  · simp [emitPair, Vec2.lerp, hc, INVERT] at h
    subst h
    rfl

theorem newCornersOf_length_of_some (cs : List Vec2) (t : ℚ) (n : ℕ)
    (nc : List Vec2) (h : newCornersOf cs t n = some nc) : nc.length = 2 * n := by
  induction n generalizing nc with
  | zero =>
    unfold newCornersOf at h
    cases h
    rfl
  | succ m ih =>
    unfold newCornersOf at h
    obtain ⟨acc, hacc, hmap⟩ := Option.bind_eq_some.mp h
    obtain ⟨pr, hpr, heq⟩ := Option.map_eq_some'.mp hmap
    subst heq
    rw [List.length_append, ih acc hacc, emitPair_length_of_some _ _ _ _ hpr]
    omega

theorem newCornersOf_some_of_valid (cs : List Vec2) (t : ℚ) (n : ℕ)
    (h0 : 0 ≤ t) (h1 : t ≤ 1) : ∃ nc, newCornersOf cs t n = some nc := by
  induction n with
  | zero => exact ⟨[], rfl⟩
  | succ m ih =>
    obtain ⟨acc, hacc⟩ := ih
    unfold newCornersOf
    rw [hacc, emitPair_eq_of_valid _ _ _ h0 h1]
    exact ⟨_, rfl⟩

theorem setEndpoints_length (l : List Vec2) (a b : Vec2) :
    (setEndpoints l a b).length = l.length := by
  simp [setEndpoints]

theorem setEndpoints_head? (l : List Vec2) (a b : Vec2) (h : 2 ≤ l.length) :
    (setEndpoints l a b).head? = some a := by
  unfold setEndpoints
  rw [List.head?_eq_getElem?, List.getElem?_set_ne, List.getElem?_set_eq_of_lt]
  · omega
  · simp
    omega

theorem setEndpoints_getLast? (l : List Vec2) (a b : Vec2) (h : l ≠ []) :
    (setEndpoints l a b).getLast? = some b := by
  unfold setEndpoints
  have hl : 0 < l.length := List.length_pos.mpr h
  rw [List.getLast?_eq_getElem?]
  simp only [List.length_set]
  rw [List.getElem?_set_eq_of_lt]
  simp
  omega

theorem getD_zero_of_ne_nil (cs : List Vec2) (d : Vec2) (h : cs ≠ []) :
    cs.head? = some (cs.getD 0 d) := by
  cases cs with
  | nil => exact absurd rfl h
  | cons c t => rfl

theorem getD_last_of_ne_nil (cs : List Vec2) (d : Vec2) (h : cs ≠ []) :
    cs.getLast? = some (cs.getD (cs.length - 1) d) := by
  have hl : 0 < cs.length := List.length_pos.mpr h
  rw [List.getLast?_eq_getElem?, List.getD_eq_getElem?_getD,
    List.getElem?_eq_getElem (by omega)]
  rfl

theorem cutIteration_closed_length_of_some (t : ℚ) (cs nc : List Vec2)
    (h : cutIteration true t cs = some nc) : nc.length = 2 * cs.length := by
  have h' : (newCornersOf cs t cs.length).bind (fun nc0 => some nc0) = some nc := h
  obtain ⟨nc0, hnc0, heq⟩ := Option.bind_eq_some.mp h'
  cases heq
  exact newCornersOf_length_of_some cs t cs.length _ hnc0

theorem cutIteration_closed_of_valid (t : ℚ) (cs : List Vec2)
    (h0 : 0 ≤ t) (h1 : t ≤ 1) : ∃ nc, cutIteration true t cs = some nc := by
  obtain ⟨nc, hnc⟩ := newCornersOf_some_of_valid cs t cs.length h0 h1
  exact ⟨nc, by simp [cutIteration, hnc]⟩

theorem cutIteration_open_some_spec (t : ℚ) (cs cs' : List Vec2)
    (h : cutIteration false t cs = some cs') (hlen : 2 ≤ cs.length) :
    cs'.length = 2 * (cs.length - 1) ∧
    cs'.head? = cs.head? ∧ cs'.getLast? = cs.getLast? := by
  have hne : cs ≠ [] := by
    intro hc
    rw [hc] at hlen
    simp at hlen
  unfold cutIteration at h
  simp only [Bool.false_eq_true, if_false] at h
  obtain ⟨nc, hnc, hmatch⟩ := Option.bind_eq_some.mp h
  have hnclen : nc.length = 2 * (cs.length - 1) :=
    newCornersOf_length_of_some cs t (cs.length - 1) nc hnc
  cases nc with
  | nil => simp at hmatch
  | cons x rest =>
    cases hmatch
    refine ⟨?_, ?_, ?_⟩
    · rw [setEndpoints_length]
      exact hnclen
    · rw [setEndpoints_head? _ _ _ (by rw [hnclen]; omega),
        getD_zero_of_ne_nil cs ⟨0, 0⟩ hne]
    · rw [setEndpoints_getLast? _ _ _ (by simp),
        getD_last_of_ne_nil cs ⟨0, 0⟩ hne]

theorem cutIteration_open_of_valid (t : ℚ) (cs : List Vec2)
    (h0 : 0 ≤ t) (h1 : t ≤ 1) (hlen : 2 ≤ cs.length) :
    ∃ cs', cutIteration false t cs = some cs' := by
  obtain ⟨nc, hnc⟩ := newCornersOf_some_of_valid cs t (cs.length - 1) h0 h1
  have hnclen : nc.length = 2 * (cs.length - 1) :=
    newCornersOf_length_of_some cs t (cs.length - 1) nc hnc
  unfold cutIteration
  simp only [Bool.false_eq_true, if_false]
  rw [hnc]
  cases nc with
  | nil =>
    simp at hnclen
    omega
  | cons x rest => exact ⟨_, rfl⟩

theorem cutLoop_open_some_spec (t : ℚ) (k : ℕ) (cs cs' : List Vec2)
    (h : cutLoop false t k cs = some cs') (hlen : 2 ≤ cs.length) :
    2 ≤ cs'.length ∧ cs'.head? = cs.head? ∧ cs'.getLast? = cs.getLast? := by
  induction k generalizing cs with
  | zero =>
    unfold cutLoop at h
    cases h
    exact ⟨hlen, rfl, rfl⟩
  | succ m ih =>
    unfold cutLoop at h
    obtain ⟨cs1, hc1, hrest⟩ := Option.bind_eq_some.mp h
    obtain ⟨hlen1, hh1, hl1⟩ := cutIteration_open_some_spec t cs cs1 hc1 hlen
    have hlen1' : 2 ≤ cs1.length := by omega
    obtain ⟨hlen', hh', hl'⟩ := ih cs1 hrest hlen1'
    exact ⟨hlen', by rw [hh', hh1], by rw [hl', hl1]⟩

theorem cutLoop_closed_of_valid (t : ℚ) (k : ℕ) (cs : List Vec2)
    (h0 : 0 ≤ t) (h1 : t ≤ 1) : ∃ cs', cutLoop true t k cs = some cs' := by
  induction k generalizing cs with
  | zero => exact ⟨cs, rfl⟩
  | succ m ih =>
    obtain ⟨nc, hnc⟩ := cutIteration_closed_of_valid t cs h0 h1
    obtain ⟨cs', hcs'⟩ := ih nc
    exact ⟨cs', by unfold cutLoop; rw [hnc]; exact hcs'⟩

theorem cutLoop_open_of_valid (t : ℚ) (k : ℕ) (cs : List Vec2)
    (h0 : 0 ≤ t) (h1 : t ≤ 1) (hlen : 2 ≤ cs.length) :
    ∃ cs', cutLoop false t k cs = some cs' := by
  induction k generalizing cs with
  | zero => exact ⟨cs, rfl⟩
  | succ m ih =>
    obtain ⟨cs1, hc1⟩ := cutIteration_open_of_valid t cs h0 h1 hlen
    obtain ⟨hlen1, -, -⟩ := cutIteration_open_some_spec t cs cs1 hc1 hlen
    have hlen1' : 2 ≤ cs1.length := by omega
    obtain ⟨cs', hcs'⟩ := ih cs1 hlen1'
    exact ⟨cs', by unfold cutLoop; rw [hc1]; exact hcs'⟩

/-! ### Structural lemmas about `cut` and `undo_cut` on the polygon state -/

theorem cut_eq_some_iff (p : Polygon) (r : ℚ) (k : ℕ) (p' : Polygon) :
    p.cut r k = some p' ↔
      ∃ cs, cutLoop p.closed (normalizeRatio r) k p.corners = some cs ∧
        p' = { p with corners := cs,
                      memory := if p.remember then p.memory ++ [p.corners] else p.memory } := by
  unfold Polygon.cut
  rw [Option.map_eq_some']
  constructor
  · rintro ⟨cs, hc, hp⟩
    exact ⟨cs, hc, hp.symm⟩
  · rintro ⟨cs, hc, hp⟩
    exact ⟨cs, hc, hp.symm⟩

theorem cut_fields (p : Polygon) (r : ℚ) (k : ℕ) (p' : Polygon)
    (h : p.cut r k = some p') :
    p'.closed = p.closed ∧ p'.color = p.color ∧ p'.filled = p.filled ∧
      p'.remember = p.remember ∧
      p'.memory = (if p.remember then p.memory ++ [p.corners] else p.memory) := by
  obtain ⟨cs, _, hp⟩ := (cut_eq_some_iff p r k p').mp h
  subst hp
  exact ⟨rfl, rfl, rfl, rfl, rfl⟩

theorem undo_cut_of_concat (q : Polygon) (m : List (List Vec2)) (c : List Vec2)
    (h : q.memory = m ++ [c]) :
    q.undo_cut = { q with corners := c, memory := m } := by
  unfold Polygon.undo_cut
  rw [h, List.getLast?_concat]
  simp [h]

theorem undo_cut_of_nil (q : Polygon) (h : q.memory = []) : q.undo_cut = q := by
  unfold Polygon.undo_cut
  rw [h]
  rfl

theorem undo_cut_fields (q : Polygon) :
    q.undo_cut.closed = q.closed ∧ q.undo_cut.color = q.color ∧
      q.undo_cut.filled = q.filled ∧ q.undo_cut.remember = q.remember := by
  unfold Polygon.undo_cut
  cases q.memory.getLast? with
  | none => exact ⟨rfl, rfl, rfl, rfl⟩
  | some cs => exact ⟨rfl, rfl, rfl, rfl⟩

theorem cut_open_some_spec (p : Polygon) (r : ℚ) (k : ℕ) (p' : Polygon)
    (h1 : p.closed = false) (h2 : 2 ≤ p.corners.length) (h : p.cut r k = some p') :
    p'.closed = false ∧ 2 ≤ p'.corners.length ∧
      p'.corners.head? = p.corners.head? ∧
      p'.corners.getLast? = p.corners.getLast? := by
  obtain ⟨cs, hc, hp⟩ := (cut_eq_some_iff p r k p').mp h
  rw [h1] at hc
  obtain ⟨hlen, hh, hl⟩ := cutLoop_open_some_spec (normalizeRatio r) k p.corners cs hc h2
  subst hp
  exact ⟨h1, hlen, hh, hl⟩

/-! ### Claim theorems -/

/-- C1 (counterexample): one ratio-0.25 cut of the closed triangle
[(0,0),(4,0),(0,4)] produces (3,1) as its third point, not (4,1): the 6-point
sequence the claim states is not the one the code produces. -/
theorem C1_claimed_sequence_false :
    (triangleC1.cut (1 / 4) 1).map Polygon.corners =
      some [⟨1, 0⟩, ⟨3, 0⟩, ⟨3, 1⟩, ⟨1, 3⟩, ⟨0, 3⟩, ⟨0, 1⟩] ∧
    (triangleC1.cut (1 / 4) 1).map Polygon.corners ≠
      some [⟨1, 0⟩, ⟨3, 0⟩, ⟨4, 1⟩, ⟨1, 3⟩, ⟨0, 3⟩, ⟨0, 1⟩] := by
  have h : (triangleC1.cut (1 / 4) 1).map Polygon.corners =
      some [⟨1, 0⟩, ⟨3, 0⟩, ⟨3, 1⟩, ⟨1, 3⟩, ⟨0, 3⟩, ⟨0, 1⟩] := by
    with_unfolding_all rfl
  refine ⟨h, ?_⟩
  rw [h]
  intro hc
  simp only [Option.some.injEq, List.cons.injEq, Vec2.mk.injEq] at hc
  norm_num at hc

/-- C1 (amended): subdividing the closed triangle [(0,0),(4,0),(0,4)] once with
ratio 0.25 yields exactly [(1,0),(3,0),(3,1),(1,3),(0,3),(0,1)] in that order,
and one subsequent revert restores exactly the original 3-point triangle. -/
theorem C1_concrete_scenario :
    (triangleC1.cut (1 / 4) 1).map (fun p => (p.corners, p.undo_cut.corners)) =
      some ([⟨1, 0⟩, ⟨3, 0⟩, ⟨3, 1⟩, ⟨1, 3⟩, ⟨0, 3⟩, ⟨0, 1⟩],
        [⟨0, 0⟩, ⟨4, 0⟩, ⟨0, 4⟩]) := by
  with_unfolding_all rfl

/-- C2: for every shape with remember = true, every accepted ratio and every
iteration count k ≥ 1, advance pushes the pre-mutation points exactly once, and
a subsequent revert restores the pre-advance points exactly. -/
theorem C2_advance_revert_roundtrip (p p' : Polygon) (r : ℚ) (k : ℕ)
    (hrem : p.remember = true) (hk : 1 ≤ k) (h : p.cut r k = some p') :
    p'.memory = p.memory ++ [p.corners] ∧
    p'.undo_cut.corners = p.corners ∧ p'.undo_cut.memory = p.memory := by
  obtain ⟨-, -, -, -, hmem⟩ := cut_fields p r k p' h
  rw [hrem] at hmem
  simp only [if_pos rfl] at hmem
  have hu := undo_cut_of_concat p' p.memory p.corners hmem
  rw [hu]
  exact ⟨hmem, rfl, rfl⟩

theorem C2_witness :
    pOne1.memory = pOne.memory ++ [pOne.corners] ∧
    pOne1.undo_cut.corners = pOne.corners ∧ pOne1.undo_cut.memory = pOne.memory :=
  C2_advance_revert_roundtrip pOne pOne1 (1 / 4) 1 rfl (by norm_num)
    (by with_unfolding_all rfl)

/-- C3: for every open shape with at least 2 points, any number of successive
advance calls that run to completion (any ratios, any iteration counts) leaves
points[0] and points[last] exactly unchanged; a call whose ratio makes lerp
raise does not complete and mutates no points, so completion is the relevant
case. -/
theorem C3_open_endpoints_invariant (p p' : Polygon) (calls : List (ℚ × ℕ))
    (h1 : p.closed = false) (h2 : 2 ≤ p.corners.length)
    (h : applyCuts p calls = some p') :
    p'.corners.head? = p.corners.head? ∧
    p'.corners.getLast? = p.corners.getLast? := by
  induction calls generalizing p with
  | nil =>
    unfold applyCuts at h
    cases h
    exact ⟨rfl, rfl⟩
  | cons c rest ih =>
    unfold applyCuts at h
    obtain ⟨p1, hc, hrest⟩ := Option.bind_eq_some.mp h
    obtain ⟨hcl, hlen, hh, hl⟩ := cut_open_some_spec p c.1 c.2 p1 h1 h2 hc
    obtain ⟨hh', hl'⟩ := ih p1 hcl hlen hrest
    exact ⟨by rw [hh', hh], by rw [hl', hl]⟩

theorem C3_witness :
    segmentOpenCut.corners.head? = segmentOpen.corners.head? ∧
    segmentOpenCut.corners.getLast? = segmentOpen.corners.getLast? :=
  C3_open_endpoints_invariant segmentOpen segmentOpenCut [(1 / 4, 1)] rfl
    (by decide) (by with_unfolding_all rfl)

/-- C4 (counterexample): for an open shape with N = 2 points, one advance
iteration outputs 2 points — equal to the input count, not smaller, contrary to
the claim that the output count is smaller than the input count exactly when
N = 2 for open shapes. -/
theorem C4_two_point_open_not_smaller :
    segmentOpen.corners.length = 2 ∧
    (segmentOpen.cut (1 / 4) 1).map (fun p => p.corners.length) = some 2 := by
  exact ⟨rfl, by with_unfolding_all rfl⟩

/-- C4 (amended): one advance iteration that runs to completion maps a closed
shape with N points to exactly 2N points, and an open shape with N ≥ 2 points
to exactly 2(N−1) points; for open shapes the output count is never smaller
than the input count, and equals it exactly when N = 2. -/
theorem C4_point_count_doubling (p p' : Polygon) (r : ℚ)
    (h : p.cut r 1 = some p') :
    (p.closed = true → p'.corners.length = 2 * p.corners.length) ∧
    (p.closed = false → 2 ≤ p.corners.length →
      p'.corners.length = 2 * (p.corners.length - 1) ∧
      p.corners.length ≤ p'.corners.length ∧
      (p'.corners.length = p.corners.length ↔ p.corners.length = 2)) := by
  obtain ⟨cs, hc, hp⟩ := (cut_eq_some_iff p r 1 p').mp h
  subst hp
  unfold cutLoop at hc
  obtain ⟨cs1, hc1, hrest⟩ := Option.bind_eq_some.mp hc
  unfold cutLoop at hrest
  cases hrest
  constructor
  · intro hcl
    rw [hcl] at hc1
    show cs.length = 2 * p.corners.length
    exact cutIteration_closed_length_of_some (normalizeRatio r) p.corners cs hc1
  · intro hcl hlen
    rw [hcl] at hc1
    obtain ⟨hl1, -, -⟩ :=
      cutIteration_open_some_spec (normalizeRatio r) p.corners cs hc1 hlen
    refine ⟨hl1, ?_, ?_⟩
    · show p.corners.length ≤ cs.length
      omega
    · show cs.length = p.corners.length ↔ p.corners.length = 2
      omega

theorem C4_witness :
    (triangleC1Cut.corners.length = 2 * triangleC1.corners.length) ∧
    (segmentOpenCut.corners.length = 2 * (segmentOpen.corners.length - 1) ∧
      segmentOpen.corners.length ≤ segmentOpenCut.corners.length ∧
      (segmentOpenCut.corners.length = segmentOpen.corners.length ↔
        segmentOpen.corners.length = 2)) :=
  ⟨(C4_point_count_doubling triangleC1 triangleC1Cut (1 / 4)
      (by with_unfolding_all rfl)).1 rfl,
   (C4_point_count_doubling segmentOpen segmentOpenCut (1 / 4)
      (by with_unfolding_all rfl)).2 rfl (by decide)⟩

/-- C5 (counterexample): ratio 0 is accepted by advance (the call completes),
yet the effective cut fraction it uses is 0, which is not in (0, 0.5]. -/
theorem C5_ratio_zero_effective_zero :
    normalizeRatio 0 = 0 ∧ ¬ (0 < normalizeRatio 0) ∧
    (triangleC1.cut 0 1).isSome = true := by
  refine ⟨by norm_num [normalizeRatio], by norm_num [normalizeRatio], ?_⟩
  with_unfolding_all rfl

/-- C5 (amended): advance normalizes the ratio by the rule "if ratio > 0.5,
use 1 − ratio"; the effective cut fraction is always ≤ 0.5, and it lies in
(0, 0.5] exactly when the input ratio lies in (0, 1). -/
theorem C5_normalization_range (r : ℚ) :
    normalizeRatio r ≤ 1 / 2 ∧
    (0 < normalizeRatio r ∧ normalizeRatio r ≤ 1 / 2 ↔ 0 < r ∧ r < 1) := by
  unfold normalizeRatio
  by_cases h : r > 1 / 2
  · rw [if_pos h]
    refine ⟨by linarith, ?_, ?_⟩
    · rintro ⟨ha, hb⟩
      constructor <;> linarith
    · rintro ⟨ha, hb⟩
      constructor <;> linarith
  · rw [if_neg h]
    push_neg at h
    refine ⟨h, ?_, ?_⟩
    · rintro ⟨ha, hb⟩
      exact ⟨ha, by linarith⟩
    · rintro ⟨ha, hb⟩
      exact ⟨ha, h⟩

/-- C6: from a freshly constructed remembering shape, three advance calls
(S0→S1→S2→S3) followed by three reverts yield S2, then S1, then S0, and a
fourth revert on the now-empty history is a no-op leaving the state unchanged. -/
theorem C6_undo_lifo (p p1 p2 p3 : Polygon) (r1 r2 r3 : ℚ) (k1 k2 k3 : ℕ)
    (hmem : p.memory = []) (hrem : p.remember = true)
    (h1 : p.cut r1 k1 = some p1) (h2 : p1.cut r2 k2 = some p2)
    (h3 : p2.cut r3 k3 = some p3) :
    p3.undo_cut.corners = p2.corners ∧
    p3.undo_cut.undo_cut.corners = p1.corners ∧
    p3.undo_cut.undo_cut.undo_cut.corners = p.corners ∧
    p3.undo_cut.undo_cut.undo_cut.undo_cut = p3.undo_cut.undo_cut.undo_cut := by
  obtain ⟨-, -, -, hrem1, hm1⟩ := cut_fields p r1 k1 p1 h1
  obtain ⟨-, -, -, hrem2, hm2⟩ := cut_fields p1 r2 k2 p2 h2
  obtain ⟨-, -, -, hrem3, hm3⟩ := cut_fields p2 r3 k3 p3 h3
  have hrem1' : p1.remember = true := by rw [hrem1, hrem]
  have hrem2' : p2.remember = true := by rw [hrem2, hrem1']
  rw [hrem, if_pos rfl, hmem, List.nil_append] at hm1
  rw [hrem1', if_pos rfl, hm1] at hm2
  rw [hrem2', if_pos rfl, hm2] at hm3
  have hu1 := undo_cut_of_concat p3 [p.corners, p1.corners] p2.corners
    (by rw [hm3]; rfl)
  have hu2 := undo_cut_of_concat p3.undo_cut [p.corners] p1.corners
    (by simp [hu1])
  have hu3 := undo_cut_of_concat p3.undo_cut.undo_cut [] p.corners
    (by simp [hu2])
  have hu4 := undo_cut_of_nil p3.undo_cut.undo_cut.undo_cut (by simp [hu3])
  exact ⟨by rw [hu1], by rw [hu2], by rw [hu3], hu4⟩

theorem C6_witness :
    pOne3.undo_cut.corners = pOne2.corners ∧
    pOne3.undo_cut.undo_cut.corners = pOne1.corners ∧
    pOne3.undo_cut.undo_cut.undo_cut.corners = pOne.corners ∧
    pOne3.undo_cut.undo_cut.undo_cut.undo_cut = pOne3.undo_cut.undo_cut.undo_cut :=
  C6_undo_lifo pOne pOne1 pOne2 pOne3 (1 / 4) (1 / 4) (1 / 4) 1 1 1 rfl rfl
    (by with_unfolding_all rfl) (by with_unfolding_all rfl)
    (by with_unfolding_all rfl)

theorem normalizeRatio_one_sub (r : ℚ) :
    normalizeRatio (1 - r) = normalizeRatio r := by
  unfold normalizeRatio
  rcases lt_trichotomy r (1 / 2) with h | h | h
  · rw [if_pos (show (1 : ℚ) - r > 1 / 2 by linarith),
      if_neg (show ¬(r > 1 / 2) by linarith)]
    ring
  · rw [h]
    norm_num
  · rw [if_neg (show ¬((1 : ℚ) - r > 1 / 2) by linarith), if_pos h]

/-- Ratio symmetry in the exact-rational model: the normalization maps r and
1 − r to the same value, so cut(r, 1) and cut(1 − r, 1) coincide over ℚ.  This
identity is specific to exact arithmetic: in the program's IEEE-double
arithmetic 1 − (1 − r) generally differs from r at the last bit (for example
r = 0.3 gives 1 − 0.7 = 0.30000000000000004), so the two calls feed slightly
different parameters to lerp and the emitted coordinates differ; the
coordinate-for-coordinate identity of the spec is a floating-point-dependent
statement that this exact embedding can neither confirm nor refute for the
program. -/
theorem cut_ratio_symmetry_exact (p : Polygon) (r : ℚ) :
    p.cut r 1 = p.cut (1 - r) 1 := by
  unfold Polygon.cut
  rw [normalizeRatio_one_sub]

/-- C8: construction (modelled from the spec with its stroke-width input) fails
with an InvalidConfiguration error exactly when the shape is open with zero
stroke width; every other input constructs successfully. -/
theorem C8_open_zero_width_rejected (corners : List Vec2) (color : ℕ × ℕ × ℕ)
    (width : ℕ) (closed filled remember : Bool) :
    (∃ e, initWithWidth corners color width closed filled remember =
      Except.error e) ↔ closed = false ∧ width = 0 := by
  unfold initWithWidth
  by_cases h : closed = false ∧ width = 0
  · rw [if_pos h]
    exact ⟨fun _ => h, fun _ => ⟨_, rfl⟩⟩
  · rw [if_neg h]
    constructor
    · rintro ⟨e, he⟩
      simp at he
    · intro hc
      exact absurd hc h

/-- C9 (counterexample): an open shape with a single point is constructible,
but advance with one iteration fails on it (Python raises IndexError at the
endpoint-restoration step, whose embedding returns none). -/
theorem C9_single_point_open_cut_fails :
    singlePointOpen.cut (1 / 4) 1 = none := by
  with_unfolding_all rfl

theorem normalizeRatio_mem_unit (r : ℚ) (h0 : 0 ≤ r) (h1 : r ≤ 1) :
    0 ≤ normalizeRatio r ∧ normalizeRatio r ≤ 1 := by
  unfold normalizeRatio
  by_cases h : r > 1 / 2
  · rw [if_pos h]
    constructor <;> linarith
  · rw [if_neg h]
    exact ⟨h0, h1⟩

/-- With a ratio outside [0, 1] (here −0.5, which the normalization of lines
74-75 leaves negative) the first lerp call raises ValueError in pygame, so
advance fails even on a well-formed closed shape. -/
theorem cut_invalid_ratio_fails : triangleC1.cut (-(1 / 2)) 1 = none := by
  with_unfolding_all rfl

/-- C9 (amended): advance never fails for any shape that is closed or has at
least 2 points, for every ratio in [0, 1] and every non-negative iteration
count; degenerate inputs are handled by the same formula.  Outside [0, 1] the
normalized ratio reaches pygame's lerp out of range and raises ValueError. -/
theorem C9_advance_total (p : Polygon) (r : ℚ) (k : ℕ)
    (hr0 : 0 ≤ r) (hr1 : r ≤ 1)
    (h : p.closed = true ∨ 2 ≤ p.corners.length) :
    ∃ p', p.cut r k = some p' := by
  obtain ⟨ht0, ht1⟩ := normalizeRatio_mem_unit r hr0 hr1
  by_cases hcl : p.closed = true
  · obtain ⟨cs, hc⟩ := cutLoop_closed_of_valid (normalizeRatio r) k p.corners ht0 ht1
    exact ⟨_, (cut_eq_some_iff p r k _).mpr ⟨cs, by rw [hcl]; exact hc, rfl⟩⟩
  · have hcl' : p.closed = false := by
      cases hp : p.closed
      · rfl
      · exact absurd hp hcl
    have hlen : 2 ≤ p.corners.length := by
      cases h with
      | inl hc => exact absurd hc hcl
      | inr hl => exact hl
    obtain ⟨cs, hc⟩ :=
      cutLoop_open_of_valid (normalizeRatio r) k p.corners ht0 ht1 hlen
    exact ⟨_, (cut_eq_some_iff p r k _).mpr ⟨cs, by rw [hcl']; exact hc, rfl⟩⟩

theorem C9_witness :
    (0 : ℚ) ≤ 0 ∧ (0 : ℚ) ≤ 1 ∧ ∃ p', triangleC1.cut 0 3 = some p' :=
  ⟨le_rfl, by norm_num, C9_advance_total triangleC1 0 3 le_rfl (by norm_num) (Or.inl rfl)⟩

/-- C10: any sequence of advance and revert calls that runs to completion
leaves the closedness flag, the remember flag, and the opaque style attributes
(color, filled) exactly at their construction-time values. -/
theorem C10_frame_preserved (p p' : Polygon) (ops : List Op)
    (h : applyOps p ops = some p') :
    p'.closed = p.closed ∧ p'.remember = p.remember ∧
    p'.color = p.color ∧ p'.filled = p.filled := by
  induction ops generalizing p with
  | nil =>
    unfold applyOps at h
    cases h
    exact ⟨rfl, rfl, rfl, rfl⟩
  | cons o rest ih =>
    unfold applyOps at h
    obtain ⟨p1, hop, hrest⟩ := Option.bind_eq_some.mp h
    have hfields : p1.closed = p.closed ∧ p1.remember = p.remember ∧
        p1.color = p.color ∧ p1.filled = p.filled := by
      cases o with
      | advance r k =>
        unfold applyOp at hop
        obtain ⟨a, b, c, d, -⟩ := cut_fields p r k p1 hop
        exact ⟨a, d, b, c⟩
      | revert =>
        unfold applyOp at hop
        obtain ⟨a, b, c, d⟩ := undo_cut_fields p
        cases hop
        exact ⟨a, d, b, c⟩
    obtain ⟨e1, e2, e3, e4⟩ := ih p1 hrest
    obtain ⟨f1, f2, f3, f4⟩ := hfields
    exact ⟨by rw [e1, f1], by rw [e2, f2], by rw [e3, f3], by rw [e4, f4]⟩

theorem C10_witness :
    triangleC1Cut.closed = triangleC1.closed ∧
    triangleC1Cut.remember = triangleC1.remember ∧
    triangleC1Cut.color = triangleC1.color ∧
    triangleC1Cut.filled = triangleC1.filled :=
  C10_frame_preserved triangleC1 triangleC1Cut
    [Op.advance (1 / 4) 1, Op.revert, Op.advance (1 / 4) 1]
    (by with_unfolding_all rfl)
